import Mathlib

/-!
# Verification of the aws-backup archive/transfer pipeline

Shallow embedding of `src/main.rs`: the zip archiving routine `zip_dir`
(with its inner `helper` loop), the S3 gateway wrapper
`create_bucket_if_not_exists`, and the orchestrators `backup` and
`restore`.  The filesystem is modelled as a snapshot (a traversal list of
entries, as `walkdir` would yield them), the S3 client as a pure oracle
of probe/create/put/get behaviours, and network plus filesystem side
effects as explicit event traces, so that ordering claims ("no network
call before the failure", "no write before the lookup") are statable.
-/

namespace AwsBackup

/-- An operating-system string as Rust sees it: either valid UTF-8
(`OsStr::to_str` succeeds and yields the `String`) or non-UTF-8 byte
data (`to_str` yields `None`). -/
inductive OsStr where
  | utf8 (s : String)
  | raw (b : List Nat)
deriving DecidableEq, Repr

/-- Rust `OsStr::to_str`: succeeds exactly on valid UTF-8. -/
def OsStr.toStr : OsStr → Option String
  | .utf8 s => some s
  | .raw _ => none

/-- A filesystem path, as its list of components (Rust `Path` iterates
components; `strip_prefix` and joins are component-wise). -/
abbrev OsPath := List OsStr

/-- Rust `Path::strip_prefix`: removes `pre` from the front of `p`
component by component; `none` when `pre` is not a prefix of `p`
(in Rust, `Err(StripPrefixError)`). -/
def stripPre : (p pre : OsPath) → Option OsPath
  | p, [] => some p
  | [], _ :: _ => none
  | c :: cs, d :: ds => if c = d then stripPre cs ds else none

/-- `Path::to_str` on a relative path: every component must be valid
UTF-8 (the Rust call converts the joined path; it succeeds exactly when
all components are valid UTF-8).  We keep the result as the component
list, which extraction recovers by splitting on the separator. -/
def pathToStr : OsPath → Option (List String)
  | [] => some []
  | c :: cs =>
    match c.toStr, pathToStr cs with
    | some s, some ss => some (s :: ss)
    | _, _ => none

/-- An abstract I/O error (`std::io::Error`), carrying an error code. -/
structure IOErr where
  code : Nat
deriving DecidableEq, Repr

instance {ε α : Type} [DecidableEq ε] [DecidableEq α] : DecidableEq (Except ε α) := fun
  | .ok a, .ok b =>
    if h : a = b then .isTrue (by rw [h]) else .isFalse (by intro hh; cases hh; exact h rfl)
  | .ok _, .error _ => .isFalse (by intro hh; cases hh)
  | .error _, .ok _ => .isFalse (by intro hh; cases hh)
  | .error a, .error b =>
    if h : a = b then .isTrue (by rw [h]) else .isFalse (by intro hh; cases hh; exact h rfl)

/-- What a traversal entry is in the filesystem snapshot: a file together
with the outcome that `File::open` + `read_to_end` would produce on it,
or a directory. -/
inductive EntryKind where
  | file (read : Except IOErr (List Nat))
  | dir
deriving DecidableEq, Repr

/-- A `walkdir::DirEntry`: an absolute path plus what the filesystem
holds there.  `entry.path().is_file()` is true exactly on the `file`
case. -/
structure DirEntry where
  path : OsPath
  kind : EntryKind
deriving DecidableEq, Repr

/-- A `walkdir` traversal error on a single entry (the `Err` case of the
iterator's items, dropped by `.filter_map(|e| e.ok())`). -/
structure WalkErr where
  code : Nat
deriving DecidableEq, Repr

/-- `zip::CompressionMethod` (the two variants relevant here). -/
inductive CompressionMethod where
  | Deflated
  | Stored
deriving DecidableEq, Repr

/-- `zip::result::ZipError`: `FileNotFound` (returned by `zip_dir` when
the source is not a directory, and by `by_name` on a missing member —
the spec calls these `NotADirectory` and `MemberNotFound`), or a wrapped
I/O error. -/
inductive ZipError where
  | fileNotFound
  | ioErr (e : IOErr)
deriving DecidableEq, Repr

/-- A record's payload kind inside the archive. -/
inductive RecKind where
  | file (data : List Nat)
  | dir
deriving DecidableEq, Repr

/-- One record of the zip container: its stored (UTF-8) relative name as
components, the compression method and Unix permissions it was opened
with, and its payload. -/
structure ArchiveEntry where
  name : List String
  method : CompressionMethod
  perms : Nat
  kind : RecKind
deriving DecidableEq, Repr

/-- The fixed Unix permission bits `0o755` set by `FileOptions`. -/
def unixPerms : Nat := 0o755

/-- Why a run aborts: the `.unwrap()` on `strip_prefix`, or the
`.unwrap()` on `to_str` of a non-UTF-8 name. -/
inductive PanicReason where
  | stripFailed
  | nonUtf8Name
deriving DecidableEq, Repr

/-- Outcome of Rust code that can return, error, or panic. -/
inductive RResult (ε α : Type) where
  | ok (a : α)
  | err (e : ε)
  | panicked (r : PanicReason)
deriving DecidableEq, Repr

/-- The loop body of `zip_dir::helper`: walks the already-filtered
traversal entries, appending archive records.  For each entry it strips
the root as a prefix (`.unwrap()`: panics when the entry is not under
the root), then: a file gets a data record opened with `to_str().unwrap()`
(panics on non-UTF-8) and the method/0o755 options, and its bytes read
(`?` propagates read failures as `ZipError::Io`); a directory with a
non-empty relative name gets a directory record (same options, same
`unwrap` on the name); the empty name (the root itself) is skipped.
The accumulator is the sequence of records written so far; `zip.finish()`
at the end returns them. -/
def helperLoop (pre : OsPath) (method : CompressionMethod) :
    List DirEntry → List ArchiveEntry → RResult ZipError (List ArchiveEntry)
  | [], acc => .ok acc
  | e :: rest, acc =>
    match stripPre e.path pre with
    | none => .panicked .stripFailed
    | some name =>
      match e.kind with
      | .file read =>
        match pathToStr name with
        | none => .panicked .nonUtf8Name
        | some s =>
          match read with
          | .error io' => .err (.ioErr io')
          | .ok data =>
            helperLoop pre method rest
              (acc ++ [⟨s, method, unixPerms, .file data⟩])
      | .dir =>
        if name.isEmpty then
          helperLoop pre method rest acc
        else
          match pathToStr name with
          | none => .panicked .nonUtf8Name
          | some s =>
            helperLoop pre method rest (acc ++ [⟨s, method, unixPerms, .dir⟩])

/-- `zip_dir(src, dst, method)`: fails with `ZipError::FileNotFound` when
`src` is not a directory (before anything is written); otherwise runs
`helper` over the `walkdir` iterator with its per-entry errors dropped by
`.filter_map(|e| e.ok())`.  `srcIsDir` is the snapshot answer of
`Path::new(src).is_dir()`; `walk` the snapshot of the `walkdir` items. -/
def zip_dir (src : OsPath) (srcIsDir : Bool)
    (walk : List (Except WalkErr DirEntry)) (method : CompressionMethod) :
    RResult ZipError (List ArchiveEntry) :=
  if srcIsDir then
    helperLoop src method (walk.filterMap Except.toOption) []
  else
    .err .fileNotFound

/-- A clean (fully readable) tree entry: a non-root filesystem object at
relative path `rel` under the tree's root. -/
inductive TKind where
  | file (content : List Nat)
  | dir
deriving DecidableEq, Repr

structure TreeEntry where
  rel : OsPath
  kind : TKind
deriving DecidableEq, Repr

/-- The `walkdir::DirEntry` a clean tree entry produces: its absolute
path under `src`, every read succeeding with the snapshot content. -/
def toDirEntry (src : OsPath) (e : TreeEntry) : DirEntry :=
  ⟨src ++ e.rel,
    match e.kind with
    | .file c => .file (.ok c)
    | .dir => .dir⟩

/-- The `walkdir` traversal of a clean directory tree rooted at `src`:
the root itself first (as `walkdir` yields it), then each entry at its
absolute path. -/
def walkOf (src : OsPath) (t : List TreeEntry) :
    List (Except WalkErr DirEntry) :=
  .ok ⟨src, .dir⟩ :: t.map fun e => .ok (toDirEntry src e)

/-! ## The object-store gateway and the orchestrators -/

/-- `aws_sdk_s3::error::CreateBucketError` (abstract, an error code). -/
structure CreateBucketError where
  code : Nat
deriving DecidableEq, Repr

/-- `aws_sdk_s3::error::PutObjectError` (abstract). -/
structure PutObjectError where
  code : Nat
deriving DecidableEq, Repr

/-- `aws_sdk_s3::error::GetObjectError` (abstract). -/
structure GetObjectError where
  code : Nat
deriving DecidableEq, Repr

/-- An observable side effect of `backup`/`restore`: the network requests
issued to the store, and the local run of the archiver. -/
inductive Event where
  | headBucket (bucket : String)
  | createBucket (bucket : String)
  | putObject (bucket key : String) (body : List ArchiveEntry)
  | getObject (bucket key : String)
  | zipRun (src : OsPath)
deriving DecidableEq, Repr

/-- The remote S3 client, as a pure oracle over the store's bucket set:
whether the `head_bucket` probe succeeds, whether `create_bucket`
succeeds, whether `put_object` succeeds, and what `get_object` returns
(the stored object, decoded to the archive it contains).  Modelled from
the spec: the client itself is the external collaborator
(`bucketExists` / `createBucket` / `put` / `get`). -/
structure Client where
  probeOk : List String → String → Bool
  createRes : List String → String → Option CreateBucketError
  putRes : String → String → Option PutObjectError
  getRes : String → String → Except GetObjectError (List ArchiveEntry)

/-- `create_bucket_if_not_exists(client, bucket)`: probes with
`head_bucket`; on probe success returns `Ok(())` at once; otherwise
issues `create_bucket` and propagates its outcome (`.map(drop)`).
Returns the result, the store's bucket set afterwards, and the trace of
network requests issued. -/
def create_bucket_if_not_exists (c : Client) (buckets : List String)
    (bucket : String) :
    Except CreateBucketError Unit × List String × List Event :=
  if c.probeOk buckets bucket then
    (.ok (), buckets, [.headBucket bucket])
  else
    match c.createRes buckets bucket with
    | none => (.ok (), bucket :: buckets, [.headBucket bucket, .createBucket bucket])
    | some e => (.error e, buckets, [.headBucket bucket, .createBucket bucket])

/-- The `Box<dyn Error>` surfaced by `backup`/`restore`: whichever
stage's error it propagates. -/
inductive AppError where
  | create (e : CreateBucketError)
  | zip (e : ZipError)
  | put (e : PutObjectError)
  | get (e : GetObjectError)
deriving DecidableEq, Repr

/-- `backup(path, bucket, key)`: `create_bucket_if_not_exists` first
(`?` aborts on its error), then `zip_dir` into the staging temp file
with `CompressionMethod::Deflated` (`?` aborts on its error), then
`upload_object` of the staged archive (`?` aborts on its error).
Returns the outcome and the ordered event trace. -/
def backup (c : Client) (buckets : List String) (src : OsPath)
    (srcIsDir : Bool) (walk : List (Except WalkErr DirEntry))
    (bucket key : String) : RResult AppError Unit × List Event :=
  match create_bucket_if_not_exists c buckets bucket with
  | (.error e, _, tr) => (.err (.create e), tr)
  | (.ok _, _, tr) =>
    match zip_dir src srcIsDir walk .Deflated with
    | .err e => (.err (.zip e), tr ++ [.zipRun src])
    | .panicked r => (.panicked r, tr ++ [.zipRun src])
    | .ok ar =>
      match c.putRes bucket key with
      | some e => (.err (.put e), tr ++ [.zipRun src, .putObject bucket key ar])
      | none => (.ok (), tr ++ [.zipRun src, .putObject bucket key ar])

/-! ## Extraction (the restore side) -/

/-- A filesystem write performed while restoring. -/
inductive FsEvent where
  | createFile (p : List String)
  | writeFile (p : List String) (data : List Nat)
  | createDir (p : List String)
deriving DecidableEq, Repr

/-- The payload `std::io::copy` streams out of an opened member: a file
record's decompressed bytes (a directory record yields nothing). -/
def ArchiveEntry.payload : ArchiveEntry → List Nat
  | ⟨_, _, _, .file d⟩ => d
  | ⟨_, _, _, .dir⟩ => []

/-- Modelled from the spec: `ZipArchive::extract` (ArchiveReader
Contract A) lives in the external `zip` crate, not in this repository.
"Iterates every record in the archive and recreates it under
`destinationRoot`, creating parent directories as needed, overwriting
any existing file at that path": a directory record becomes a directory
at `root/name`, a file record a created file at `root/name` holding the
record's payload. -/
def extractAll (ar : List ArchiveEntry) (root : List String) : List FsEvent :=
  ar.flatMap fun e =>
    match e.kind with
    | .dir => [.createDir (root ++ e.name)]
    | .file d => [.createFile (root ++ e.name), .writeFile (root ++ e.name) d]

/-- The files a sequence of filesystem events leaves populated
(path, bytes), in order of writing. -/
def writtenFiles (evts : List FsEvent) : List (List String × List Nat) :=
  evts.filterMap fun
    | .writeFile p d => some (p, d)
    | _ => none

/-- The directories a sequence of filesystem events creates. -/
def madeDirs (evts : List FsEvent) : List (List String) :=
  evts.filterMap fun
    | .createDir p => some p
    | _ => none

/-- `restore(path, bucket, key, file)`: `download_object` (`?` aborts on
its error), stream into the staging temp file, open it as a
`ZipArchive`, then either `archive.extract(path)` when no member was
named, or — member `m` named — `File::create(path.join(m))` FIRST and
only then `archive.by_name(m)` (`?` propagates `ZipError::FileNotFound`
on a missing member), finally `std::io::copy` of the member into the
created file.  Member names are component lists (the `-f` string split
at separators, matching the stored name).  Returns the outcome, the
network trace, and the local filesystem writes in order. -/
def restore (c : Client) (bucket key : String) (path : List String)
    (member : Option (List String)) :
    Except AppError Unit × List Event × List FsEvent :=
  match c.getRes bucket key with
  | .error e => (.error (.get e), [.getObject bucket key], [])
  | .ok ar =>
    match member with
    | none => (.ok (), [.getObject bucket key], extractAll ar path)
    | some m =>
      let dest := path ++ m
      match ar.find? (fun e => decide (e.name = m)) with
      | none => (.error (.zip .fileNotFound), [.getObject bucket key],
          [.createFile dest])
      | some e => (.ok (), [.getObject bucket key],
          [.createFile dest, .writeFile dest e.payload])

/-! ## Derived characterizations (used only in theorem statements and
proofs, never by the embedded code) -/

/-- Whether the writer's loop can process a traversal entry without
panicking, erroring, or skipping for unreadability: the entry lies under
the root, its relative name is valid UTF-8, and (for a file) its read
succeeds. -/
def cleanEntry (pre : OsPath) (e : DirEntry) : Bool :=
  match stripPre e.path pre with
  | none => false
  | some name =>
    (pathToStr name).isSome &&
    (match e.kind with
     | .file (.ok _) => true
     | .file (.error _) => false
     | .dir => true)

/-- The archive record a clean traversal entry contributes (none for the
root's empty name). -/
def recordOf (pre : OsPath) (m : CompressionMethod) (e : DirEntry) :
    Option ArchiveEntry :=
  match stripPre e.path pre with
  | none => none
  | some name =>
    match pathToStr name with
    | none => none
    | some s =>
      match e.kind with
      | .file (.ok d) => some ⟨s, m, unixPerms, .file d⟩
      | .file (.error _) => none
      | .dir => if name.isEmpty then none else some ⟨s, m, unixPerms, .dir⟩

/-- The archive record a clean tree entry contributes. -/
def treeRecord (m : CompressionMethod) (e : TreeEntry) : Option ArchiveEntry :=
  match pathToStr e.rel with
  | none => none
  | some s =>
    match e.kind with
    | .file c => some ⟨s, m, unixPerms, .file c⟩
    | .dir => if e.rel.isEmpty then none else some ⟨s, m, unixPerms, .dir⟩

/-- The tree's files, placed at their extraction destination. -/
def treeFiles (dest : List String) (t : List TreeEntry) :
    List (List String × List Nat) :=
  t.filterMap fun e =>
    match pathToStr e.rel with
    | none => none
    | some s =>
      match e.kind with
      | .file c => some (dest ++ s, c)
      | .dir => none

/-- The tree's directories, placed at their extraction destination. -/
def treeDirs (dest : List String) (t : List TreeEntry) : List (List String) :=
  t.filterMap fun e =>
    match pathToStr e.rel with
    | none => none
    | some s =>
      match e.kind with
      | .file _ => none
      | .dir => some (dest ++ s)

/-- A directory record, as a Boolean discriminator. -/
def ArchiveEntry.isDirRec (r : ArchiveEntry) : Bool :=
  match r.kind with
  | .dir => true
  | .file _ => false

/-- Map over the success value of an `RResult`. -/
def RResult.mapOk {ε α β : Type} (f : α → β) : RResult ε α → RResult ε β
  | .ok a => .ok (f a)
  | .err e => .err e
  | .panicked r => .panicked r

/-! ## Concrete instances for exercising the theorems -/

/-- A store whose probe always succeeds; uploads succeed, downloads
fail. -/
def probeTrueClient : Client :=
  ⟨fun _ _ => true, fun _ _ => none, fun _ _ => none,
   fun _ _ => .error ⟨0⟩⟩

/-- A store whose probe reports exactly membership in the bucket set and
whose creations always succeed. -/
def memClient : Client :=
  ⟨fun bs b => decide (b ∈ bs), fun _ _ => none, fun _ _ => none,
   fun _ _ => .error ⟨0⟩⟩

/-- A store holding one object that decodes to the given archive. -/
def getClient (ar : List ArchiveEntry) : Client :=
  ⟨fun _ _ => true, fun _ _ => none, fun _ _ => none, fun _ _ => .ok ar⟩

/-- A client whose probe fails and whose creation fails. -/
def createFailClient : Client :=
  ⟨fun _ _ => false, fun _ _ => some ⟨7⟩, fun _ _ => none,
   fun _ _ => .error ⟨0⟩⟩

/-- A client whose probe succeeds but whose upload fails. -/
def putFailClient : Client :=
  ⟨fun _ _ => true, fun _ _ => none, fun _ _ => some ⟨9⟩,
   fun _ _ => .error ⟨0⟩⟩

/-- The spec's concrete scenario: `{a.txt: "hi", sub/b.txt: "bye"}`. -/
def sampleTree : List TreeEntry :=
  [⟨[.utf8 "a.txt"], .file [104, 105]⟩,
   ⟨[.utf8 "sub"], .dir⟩,
   ⟨[.utf8 "sub", .utf8 "b.txt"], .file [98, 121, 101]⟩]

/-- A tree holding a file whose name is not valid UTF-8. -/
def badNameTree : List TreeEntry :=
  [⟨[.utf8 "ok.txt"], .file [1]⟩,
   ⟨[.raw [255, 254]], .file [2]⟩]

/-- A sample root path. -/
def sampleRoot : OsPath := [.utf8 "root"]

/-- A two-member archive for exercising the restore path. -/
def sampleArchive : List ArchiveEntry :=
  [⟨["a.txt"], .Deflated, unixPerms, .file [104, 105]⟩,
   ⟨["sub"], .Deflated, unixPerms, .dir⟩]

/-- The archive `zip_dir` builds from `sampleTree`. -/
def sampleTreeArchive : List ArchiveEntry :=
  [⟨["a.txt"], .Deflated, unixPerms, .file [104, 105]⟩,
   ⟨["sub"], .Deflated, unixPerms, .dir⟩,
   ⟨["sub", "b.txt"], .Deflated, unixPerms, .file [98, 121, 101]⟩]

/-- A tree holding only files. -/
def allFilesTree : List TreeEntry :=
  [⟨[.utf8 "a"], .file [1]⟩, ⟨[.utf8 "b"], .file [2]⟩]

/-- A traversal with one failing entry between two readable ones. -/
def sampleWalk : List (Except WalkErr DirEntry) :=
  [.ok ⟨sampleRoot, .dir⟩,
   .error ⟨3⟩,
   .ok ⟨sampleRoot ++ [.utf8 "a"], .file (.ok [5])⟩]

/-! ## Helper lemmas -/

theorem stripPre_append (pre rel : OsPath) :
    stripPre (pre ++ rel) pre = some rel := by
  induction pre with
  | nil => cases rel <;> rfl
  | cons c cs ih => simpa [stripPre] using ih

theorem pathToStr_nil : pathToStr ([] : OsPath) = some [] := rfl

theorem pathToStr_ne_nil {p : OsPath} {s : List String}
    (hp : p ≠ []) (h : pathToStr p = some s) : s ≠ [] := by
  cases p with
  | nil => exact absurd rfl hp
  | cons c cs =>
    cases hc : OsStr.toStr c with
    | none => simp [pathToStr, hc] at h
    | some b =>
      cases hcs : pathToStr cs with
      | none => simp [pathToStr, hc, hcs] at h
      | some bs =>
        simp [pathToStr, hc, hcs] at h
        simp [← h]

/-- Running the loop with records already accumulated only prepends
them to the final archive. -/
theorem helperLoop_acc (pre : OsPath) (m : CompressionMethod) :
    ∀ (es : List DirEntry) (acc : List ArchiveEntry),
      helperLoop pre m es acc =
        (helperLoop pre m es []).mapOk (fun l => acc ++ l) := by
  intro es
  induction es with
  | nil => intro acc; simp [helperLoop, RResult.mapOk]
  | cons e rest ih =>
    intro acc
    cases hst : stripPre e.path pre with
    | none => simp [helperLoop, hst, RResult.mapOk]
    | some name =>
      cases hk : e.kind with
      | file read =>
        cases hps : pathToStr name with
        | none => simp [helperLoop, hst, hk, hps, RResult.mapOk]
        | some s =>
          cases read with
          | error io' => simp [helperLoop, hst, hk, hps, RResult.mapOk]
          | ok data =>
            simp only [helperLoop, hst, hk, hps, List.nil_append]
            have h1 := ih (acc ++
              [{ name := s, method := m, perms := unixPerms, kind := RecKind.file data }])
            have h2 := ih
              [{ name := s, method := m, perms := unixPerms, kind := RecKind.file data }]
            rw [h1, h2]
            cases helperLoop pre m rest [] <;>
              simp [RResult.mapOk, List.append_assoc]
      | dir =>
        cases hemp : name.isEmpty with
        | true =>
          simp only [helperLoop, hst, hk, hemp, if_true]
          exact ih acc
        | false =>
          cases hps : pathToStr name with
          | none => simp [helperLoop, hst, hk, hemp, hps, RResult.mapOk]
          | some s =>
            simp only [helperLoop, hst, hk, hemp, hps, List.nil_append,
              Bool.false_eq_true, if_false]
            have h1 := ih (acc ++
              [{ name := s, method := m, perms := unixPerms, kind := RecKind.dir }])
            have h2 := ih
              [{ name := s, method := m, perms := unixPerms, kind := RecKind.dir }]
            rw [h1, h2]
            cases helperLoop pre m rest [] <;>
              simp [RResult.mapOk, List.append_assoc]

/-- On clean entries the loop neither errors nor panics: it appends
exactly each entry's record. -/
theorem helperLoop_clean (pre : OsPath) (m : CompressionMethod) :
    ∀ (es : List DirEntry) (acc : List ArchiveEntry),
      (∀ e ∈ es, cleanEntry pre e = true) →
      helperLoop pre m es acc = .ok (acc ++ es.filterMap (recordOf pre m)) := by
  intro es
  induction es with
  | nil => intro acc _; simp [helperLoop]
  | cons e rest ih =>
    intro acc h
    have he : cleanEntry pre e = true := h e (List.mem_cons_self e rest)
    have hrest : ∀ e' ∈ rest, cleanEntry pre e' = true :=
      fun e' h' => h e' (List.mem_cons_of_mem e h')
    cases hst : stripPre e.path pre with
    | none => simp [cleanEntry, hst] at he
    | some name =>
      cases hps : pathToStr name with
      | none => simp [cleanEntry, hst, hps] at he
      | some s =>
        cases hk : e.kind with
        | file read =>
          cases read with
          | error io' => simp [cleanEntry, hst, hps, hk] at he
          | ok data =>
            rw [show helperLoop pre m (e :: rest) acc =
                helperLoop pre m rest (acc ++
                  [{ name := s, method := m, perms := unixPerms,
                     kind := RecKind.file data }]) by
              simp [helperLoop, hst, hk, hps]]
            rw [ih _ hrest]
            simp [List.filterMap_cons, recordOf, hst, hps, hk]
        | dir =>
          cases hemp : name.isEmpty with
          | true =>
            rw [show helperLoop pre m (e :: rest) acc =
                helperLoop pre m rest acc by
              simp [helperLoop, hst, hk, hemp]]
            rw [ih _ hrest]
            simp [List.filterMap_cons, recordOf, hst, hps, hk, hemp]
          | false =>
            rw [show helperLoop pre m (e :: rest) acc =
                helperLoop pre m rest (acc ++
                  [{ name := s, method := m, perms := unixPerms,
                     kind := RecKind.dir }]) by
              simp [helperLoop, hst, hk, hps, hemp]]
            rw [ih _ hrest]
            simp [List.filterMap_cons, recordOf, hst, hps, hk, hemp]

theorem toOption_eq_some {ε α : Type} {a : Except ε α} {x : α} :
    a.toOption = some x ↔ a = .ok x := by
  cases a <;> simp [Except.toOption]

/-- A run of `zip_dir` on a directory whose surviving traversal entries
are all clean succeeds with exactly their records. -/
theorem zip_dir_clean (src : OsPath)
    (walk : List (Except WalkErr DirEntry)) (m : CompressionMethod)
    (hclean : ∀ e, Except.ok e ∈ walk → cleanEntry src e = true) :
    zip_dir src true walk m =
      .ok ((walk.filterMap Except.toOption).filterMap (recordOf src m)) := by
  rw [zip_dir, if_pos rfl]
  apply helperLoop_clean
  intro e he
  rcases List.mem_filterMap.mp he with ⟨a, ha, hae⟩
  exact hclean e (toOption_eq_some.mp hae ▸ ha)

theorem stripPre_self (p : OsPath) : stripPre p p = some [] := by
  have := stripPre_append p []
  simpa using this

/-- Every entry of a clean tree's traversal is clean, once its relative
names are valid UTF-8. -/
theorem walkOf_clean (src : OsPath) (t : List TreeEntry)
    (hutf : ∀ e ∈ t, (pathToStr e.rel).isSome = true) :
    ∀ e, Except.ok e ∈ walkOf src t → cleanEntry src e = true := by
  intro e he
  rcases List.mem_cons.mp he with hroot | hmem
  · cases hroot
    simp [cleanEntry, stripPre_self, pathToStr_nil]
  · rcases List.mem_map.mp hmem with ⟨te, hte, heq⟩
    cases heq
    rcases Option.isSome_iff_exists.mp (hutf te hte) with ⟨s, hs⟩
    cases hk : te.kind with
    | file c => simp [cleanEntry, toDirEntry, stripPre_append, hs, hk]
    | dir => simp [cleanEntry, toDirEntry, stripPre_append, hs, hk]

/-- The record a clean tree entry's traversal entry contributes is its
tree record. -/
theorem recordOf_toDirEntry (src : OsPath) (m : CompressionMethod)
    (e : TreeEntry) :
    recordOf src m (toDirEntry src e) = treeRecord m e := by
  cases hps : pathToStr e.rel with
  | none =>
    cases hk : e.kind with
    | file c => simp [recordOf, treeRecord, toDirEntry, stripPre_append, hps, hk]
    | dir => simp [recordOf, treeRecord, toDirEntry, stripPre_append, hps, hk]
  | some s =>
    cases hk : e.kind with
    | file c => simp [recordOf, treeRecord, toDirEntry, stripPre_append, hps, hk]
    | dir =>
      simp [recordOf, treeRecord, toDirEntry, stripPre_append, hps, hk,
        List.isEmpty_iff]

/-- The entries surviving the `filter_map` on a clean tree traversal:
the root, then every tree entry. -/
theorem walkOf_filterMap (src : OsPath) (t : List TreeEntry) :
    (walkOf src t).filterMap Except.toOption =
      ⟨src, EntryKind.dir⟩ :: t.map (toDirEntry src) := by
  simp only [walkOf, List.filterMap_cons, Except.toOption, List.filterMap_map,
    Function.comp_def]
  exact congrArg _ (congrFun (List.filterMap_eq_map (toDirEntry src)) t)

/-- `zip_dir` on a clean tree's traversal succeeds with the tree's
records. -/
theorem zip_dir_walkOf (src : OsPath) (t : List TreeEntry)
    (m : CompressionMethod)
    (hutf : ∀ e ∈ t, (pathToStr e.rel).isSome = true) :
    zip_dir src true (walkOf src t) m = .ok (t.filterMap (treeRecord m)) := by
  rw [zip_dir_clean src (walkOf src t) m (walkOf_clean src t hutf)]
  rw [walkOf_filterMap]
  have hroot : recordOf src m ⟨src, EntryKind.dir⟩ = none := by
    simp [recordOf, stripPre_self, pathToStr_nil]
  simp only [List.filterMap_cons, hroot, List.filterMap_map, Function.comp_def,
    recordOf_toDirEntry]

theorem isEmpty_false_ne_nil {α : Type} {l : List α}
    (h : l.isEmpty = false) : l ≠ [] := by
  cases l <;> simp_all

/-- Structural invariant of any successful run of the loop: every
record beyond the accumulator was opened with the fixed options, and a
directory record never has the empty name. -/
theorem helperLoop_ok_mem (pre : OsPath) (m : CompressionMethod) :
    ∀ (es : List DirEntry) (acc ar : List ArchiveEntry),
      helperLoop pre m es acc = .ok ar → ∀ r ∈ ar,
        r ∈ acc ∨ (r.perms = unixPerms ∧ r.method = m ∧
          (r.kind = RecKind.dir → r.name ≠ [])) := by
  intro es
  induction es with
  | nil =>
    intro acc ar h r hr
    left
    simp only [helperLoop, RResult.ok.injEq] at h
    exact h ▸ hr
  | cons e rest ih =>
    intro acc ar h r hr
    cases hst : stripPre e.path pre with
    | none => simp [helperLoop, hst] at h
    | some name =>
      cases hk : e.kind with
      | file read =>
        cases hps : pathToStr name with
        | none => simp [helperLoop, hst, hk, hps] at h
        | some s =>
          cases read with
          | error io' => simp [helperLoop, hst, hk, hps] at h
          | ok data =>
            rw [show helperLoop pre m (e :: rest) acc =
                helperLoop pre m rest (acc ++
                  [{ name := s, method := m, perms := unixPerms,
                     kind := RecKind.file data }]) by
              simp [helperLoop, hst, hk, hps]] at h
            rcases ih _ _ h r hr with hmem | hp
            · rcases List.mem_append.mp hmem with h1 | h2
              · exact Or.inl h1
              · have hr2 := List.mem_singleton.mp h2
                subst hr2
                exact Or.inr ⟨rfl, rfl, by intro hd; simp at hd⟩
            · exact Or.inr hp
      | dir =>
        cases hemp : name.isEmpty with
        | true =>
          rw [show helperLoop pre m (e :: rest) acc =
              helperLoop pre m rest acc by
            simp [helperLoop, hst, hk, hemp]] at h
          exact ih _ _ h r hr
        | false =>
          cases hps : pathToStr name with
          | none => simp [helperLoop, hst, hk, hemp, hps] at h
          | some s =>
            rw [show helperLoop pre m (e :: rest) acc =
                helperLoop pre m rest (acc ++
                  [{ name := s, method := m, perms := unixPerms,
                     kind := RecKind.dir }]) by
              simp [helperLoop, hst, hk, hemp, hps]] at h
            rcases ih _ _ h r hr with hmem | hp
            · rcases List.mem_append.mp hmem with h1 | h2
              · exact Or.inl h1
              · have hr2 := List.mem_singleton.mp h2
                subst hr2
                exact Or.inr ⟨rfl, rfl, fun _ =>
                  pathToStr_ne_nil (isEmpty_false_ne_nil hemp) hps⟩
            · exact Or.inr hp

/-- When every entry lies under the root, the `strip_prefix` unwrap is
never the abort cause. -/
theorem helperLoop_ne_strip_panic (pre : OsPath) (m : CompressionMethod) :
    ∀ (es : List DirEntry) (acc : List ArchiveEntry),
      (∀ e ∈ es, (stripPre e.path pre).isSome = true) →
      helperLoop pre m es acc ≠ .panicked .stripFailed := by
  intro es
  induction es with
  | nil => intro acc _; simp [helperLoop]
  | cons e rest ih =>
    intro acc h
    have he := h e (List.mem_cons_self e rest)
    have hrest : ∀ e' ∈ rest, (stripPre e'.path pre).isSome = true :=
      fun e' h' => h e' (List.mem_cons_of_mem e h')
    cases hst : stripPre e.path pre with
    | none => rw [hst] at he; simp at he
    | some name =>
      cases hk : e.kind with
      | file read =>
        cases hps : pathToStr name with
        | none => simp [helperLoop, hst, hk, hps]
        | some s =>
          cases read with
          | error io' => simp [helperLoop, hst, hk, hps]
          | ok data =>
            rw [show helperLoop pre m (e :: rest) acc =
                helperLoop pre m rest (acc ++
                  [{ name := s, method := m, perms := unixPerms,
                     kind := RecKind.file data }]) by
              simp [helperLoop, hst, hk, hps]]
            exact ih _ hrest
      | dir =>
        cases hemp : name.isEmpty with
        | true =>
          rw [show helperLoop pre m (e :: rest) acc =
              helperLoop pre m rest acc by
            simp [helperLoop, hst, hk, hemp]]
          exact ih _ hrest
        | false =>
          cases hps : pathToStr name with
          | none => simp [helperLoop, hst, hk, hemp, hps]
          | some s =>
            rw [show helperLoop pre m (e :: rest) acc =
                helperLoop pre m rest (acc ++
                  [{ name := s, method := m, perms := unixPerms,
                     kind := RecKind.dir }]) by
              simp [helperLoop, hst, hk, hemp, hps]]
            exact ih _ hrest

/-- A clean tree holding any entry whose relative name is not valid
UTF-8 makes the loop abort with the `to_str` unwrap panic. -/
theorem helperLoop_map_nonUtf8 (src : OsPath) (m : CompressionMethod) :
    ∀ (t : List TreeEntry) (acc : List ArchiveEntry),
      (∃ e ∈ t, pathToStr e.rel = none) →
      helperLoop src m (t.map (toDirEntry src)) acc =
        .panicked .nonUtf8Name := by
  intro t
  induction t with
  | nil =>
    intro acc h
    rcases h with ⟨e, he, _⟩
    simp at he
  | cons e rest ih =>
    intro acc hbad
    cases hcase : pathToStr e.rel with
    | none =>
      cases hk : e.kind with
      | file c =>
        simp [helperLoop, toDirEntry, stripPre_append, hk, hcase]
      | dir =>
        have hne : e.rel.isEmpty = false := by
          cases hr : e.rel with
          | nil => rw [hr] at hcase; simp [pathToStr] at hcase
          | cons _ _ => rfl
        simp [helperLoop, toDirEntry, stripPre_append, hk, hcase, hne]
    | some s =>
      have hbadrest : ∃ e' ∈ rest, pathToStr e'.rel = none := by
        rcases hbad with ⟨e', he', hbe⟩
        rcases List.mem_cons.mp he' with heq | hmem
        · subst heq; rw [hbe] at hcase; cases hcase
        · exact ⟨e', hmem, hbe⟩
      cases hk : e.kind with
      | file c =>
        rw [show helperLoop src m ((e :: rest).map (toDirEntry src)) acc =
            helperLoop src m (rest.map (toDirEntry src)) (acc ++
              [{ name := s, method := m, perms := unixPerms,
                 kind := RecKind.file c }]) by
          simp [helperLoop, toDirEntry, stripPre_append, hk, hcase]]
        exact ih _ hbadrest
      | dir =>
        cases hemp : e.rel.isEmpty with
        | true =>
          rw [show helperLoop src m ((e :: rest).map (toDirEntry src)) acc =
              helperLoop src m (rest.map (toDirEntry src)) acc by
            simp [helperLoop, toDirEntry, stripPre_append, hk, hemp]]
          exact ih _ hbadrest
        | false =>
          rw [show helperLoop src m ((e :: rest).map (toDirEntry src)) acc =
              helperLoop src m (rest.map (toDirEntry src)) (acc ++
                [{ name := s, method := m, perms := unixPerms,
                   kind := RecKind.dir }]) by
            simp [helperLoop, toDirEntry, stripPre_append, hk, hcase, hemp]]
          exact ih _ hbadrest

/-- The network requests `create_bucket_if_not_exists` issues: always
the probe, and the creation request exactly when the probe failed. -/
theorem create_bucket_trace_shape (c : Client) (bs : List String)
    (b : String) :
    (create_bucket_if_not_exists c bs b).2.2 = [.headBucket b] ∨
    (create_bucket_if_not_exists c bs b).2.2 =
      [.headBucket b, .createBucket b] := by
  rw [create_bucket_if_not_exists]
  cases hp : c.probeOk bs b with
  | true => left; simp
  | false =>
    right
    cases hc : c.createRes bs b <;> simp [hc]

/-- Records of a successful `zip_dir` run: fixed options, and no
empty-named directory record. -/
theorem zip_dir_ok_mem {src : OsPath} {d : Bool}
    {walk : List (Except WalkErr DirEntry)} {m : CompressionMethod}
    {ar : List ArchiveEntry} (h : zip_dir src d walk m = .ok ar) :
    ∀ r ∈ ar, r.perms = unixPerms ∧ r.method = m ∧
      (r.kind = RecKind.dir → r.name ≠ []) := by
  intro r hr
  rw [zip_dir] at h
  cases d with
  | false => simp at h
  | true =>
    rw [if_pos rfl] at h
    rcases helperLoop_ok_mem src m _ _ _ h r hr with hmem | hp
    · simp at hmem
    · exact hp

/-- Extracting the archive of a tree writes exactly the tree's files. -/
theorem extract_files (m : CompressionMethod) (dest : List String) :
    ∀ t : List TreeEntry,
      writtenFiles (extractAll (t.filterMap (treeRecord m)) dest) =
        treeFiles dest t := by
  intro t
  induction t with
  | nil => rfl
  | cons e rest ih =>
    cases hps : pathToStr e.rel with
    | none =>
      cases hk : e.kind with
      | file c =>
        simp only [List.filterMap_cons, treeRecord, treeFiles, hps, hk]
        exact ih
      | dir =>
        simp only [List.filterMap_cons, treeRecord, treeFiles, hps, hk]
        exact ih
    | some s =>
      cases hk : e.kind with
      | file c =>
        simp only [List.filterMap_cons, treeRecord, treeFiles, hps, hk,
          extractAll, List.flatMap_cons, writtenFiles, List.filterMap_cons,
          List.filterMap_append]
        simp [extractAll, writtenFiles, treeFiles] at ih ⊢
        exact ih
      | dir =>
        cases hemp : e.rel.isEmpty with
        | true =>
          simp only [List.filterMap_cons, treeRecord, treeFiles, hps, hk, hemp,
            if_true]
          exact ih
        | false =>
          simp only [List.filterMap_cons, treeRecord, treeFiles, hps, hk, hemp,
            Bool.false_eq_true, if_false]
          simp [extractAll, writtenFiles, treeFiles] at ih ⊢
          exact ih

/-- Extracting the archive of a tree (whose entries are genuinely below
the root) creates exactly the tree's directories. -/
theorem extract_dirs (m : CompressionMethod) (dest : List String) :
    ∀ t : List TreeEntry, (∀ e ∈ t, e.rel ≠ []) →
      madeDirs (extractAll (t.filterMap (treeRecord m)) dest) =
        treeDirs dest t := by
  intro t
  induction t with
  | nil => intro _; rfl
  | cons e rest ih =>
    intro hwf
    have hrest := fun e' h' => hwf e' (List.mem_cons_of_mem e h')
    have hne : e.rel ≠ [] := hwf e (List.mem_cons_self e rest)
    have hemp : e.rel.isEmpty = false := by
      cases hr : e.rel with
      | nil => exact absurd hr hne
      | cons _ _ => rfl
    cases hps : pathToStr e.rel with
    | none =>
      cases hk : e.kind with
      | file c =>
        simp only [List.filterMap_cons, treeRecord, treeDirs, hps, hk]
        exact ih hrest
      | dir =>
        simp only [List.filterMap_cons, treeRecord, treeDirs, hps, hk]
        exact ih hrest
    | some s =>
      cases hk : e.kind with
      | file c =>
        simp only [List.filterMap_cons, treeRecord, treeDirs, hps, hk]
        simp [extractAll, madeDirs, treeDirs] at ih ⊢
        exact ih hrest
      | dir =>
        simp only [List.filterMap_cons, treeRecord, treeDirs, hps, hk, hemp,
          Bool.false_eq_true, if_false]
        simp [extractAll, madeDirs, treeDirs] at ih ⊢
        exact ih hrest

/-- The archive of an all-file tree has no directory record and one file
record per tree entry. -/
theorem allfiles_counts (m : CompressionMethod) :
    ∀ t : List TreeEntry,
      (∀ e ∈ t, (pathToStr e.rel).isSome = true) →
      (∀ e ∈ t, ∃ c, e.kind = TKind.file c) →
      (t.filterMap (treeRecord m)).countP (fun r => r.isDirRec) = 0 ∧
      (t.filterMap (treeRecord m)).countP (fun r => !r.isDirRec) = t.length := by
  intro t
  induction t with
  | nil => intro _ _; simp
  | cons e rest ih =>
    intro hutf hfile
    rcases hfile e (List.mem_cons_self e rest) with ⟨c, hk⟩
    rcases Option.isSome_iff_exists.mp (hutf e (List.mem_cons_self e rest))
      with ⟨s, hs⟩
    have ihr := ih (fun e' h' => hutf e' (List.mem_cons_of_mem e h'))
      (fun e' h' => hfile e' (List.mem_cons_of_mem e h'))
    simp only [List.filterMap_cons, treeRecord, hk, hs, List.countP_cons,
      List.length_cons]
    constructor
    · simpa [ArchiveEntry.isDirRec] using ihr.1
    · simpa [ArchiveEntry.isDirRec] using ihr.2

/-- The only way a `put_object` request appears in `backup`'s trace is
as the upload of the archive `zip_dir` just built with `Deflated`. -/
theorem backup_put_body {c : Client} {bs : List String} {src : OsPath}
    {d : Bool} {walk : List (Except WalkErr DirEntry)} {b k b' k' : String}
    {body : List ArchiveEntry}
    (hmem : Event.putObject b' k' body ∈ (backup c bs src d walk b k).2) :
    zip_dir src d walk CompressionMethod.Deflated = .ok body := by
  rcases hcb : create_bucket_if_not_exists c bs b with ⟨res, bs2, tr⟩
  have htr : tr = [.headBucket b] ∨ tr = [.headBucket b, .createBucket b] := by
    have h0 := create_bucket_trace_shape c bs b
    rw [hcb] at h0
    exact h0
  have hnotr : Event.putObject b' k' body ∉ tr := by
    rcases htr with rfl | rfl <;> simp
  cases res with
  | error e =>
    simp only [backup, hcb] at hmem
    exact absurd hmem hnotr
  | ok u =>
    cases hz : zip_dir src d walk .Deflated with
    | err e =>
      simp only [backup, hcb, hz] at hmem
      rcases List.mem_append.mp hmem with h1 | h1
      · exact absurd h1 hnotr
      · simp at h1
    | panicked pr =>
      simp only [backup, hcb, hz] at hmem
      rcases List.mem_append.mp hmem with h1 | h1
      · exact absurd h1 hnotr
      · simp at h1
    | ok ar =>
      have hmem2 : Event.putObject b' k' body ∈
          tr ++ [.zipRun src, .putObject b k ar] := by
        cases hput : c.putRes b k with
        | none => simpa only [backup, hcb, hz, hput] using hmem
        | some e => simpa only [backup, hcb, hz, hput] using hmem
      rcases List.mem_append.mp hmem2 with h1 | h1
      · exact absurd h1 hnotr
      · simp only [List.mem_cons, List.not_mem_nil, or_false] at h1
        rcases h1 with h1 | h1
        · cases h1
        · injection h1 with hb hk hbody
          rw [hbody]

/-! ## Claim theorems -/

/-- C1, counterexample: `backup` on a regular-file source (with a store
whose probe succeeds) does fail with the not-a-directory error
(`ZipError::FileNotFound`, the spec's `NotADirectory`), but the bucket
probe — a network call — is already in the trace before that failure,
so "no network call is attempted before that failure is reported" is
false of the code. -/
theorem backup_file_source_cex :
    (backup probeTrueClient [] [.utf8 "f"] false [] "b" "k").1 =
      .err (.zip .fileNotFound) ∧
    (backup probeTrueClient [] [.utf8 "f"] false [] "b" "k").2 =
      [.headBucket "b", .zipRun [.utf8 "f"]] ∧
    Event.headBucket "b" ∈
      (backup probeTrueClient [] [.utf8 "f"] false [] "b" "k").2 := by
  refine ⟨?_, ?_, ?_⟩ <;> decide

/-- C1, amended: `backup` on a path that is a regular file (not a
directory) fails with `NotADirectory` provided bucket provisioning
succeeded, and no object upload is attempted before (or after) that
failure — but the bucket probe, and when the probe failed also a bucket
creation, have already been issued: the trace is exactly the bucket
provisioning requests followed by the failing archiver run. -/
theorem backup_file_source (c : Client) (bs : List String) (src : OsPath)
    (walk : List (Except WalkErr DirEntry)) (b k : String)
    (hok : (create_bucket_if_not_exists c bs b).1 = .ok ()) :
    (backup c bs src false walk b k).1 = .err (.zip .fileNotFound) ∧
    (backup c bs src false walk b k).2 =
      (create_bucket_if_not_exists c bs b).2.2 ++ [.zipRun src] ∧
    ∀ b' k' body,
      Event.putObject b' k' body ∉ (backup c bs src false walk b k).2 := by
  cases hp : c.probeOk bs b with
  | true =>
    refine ⟨?_, ?_, ?_⟩ <;>
      simp [backup, create_bucket_if_not_exists, hp, zip_dir]
  | false =>
    cases hcr : c.createRes bs b with
    | none =>
      refine ⟨?_, ?_, ?_⟩ <;>
        simp [backup, create_bucket_if_not_exists, hp, hcr, zip_dir]
    | some e =>
      rw [create_bucket_if_not_exists] at hok
      simp [hp, hcr] at hok

/-- C1, witness for the amended theorem at a concrete store and file. -/
theorem backup_file_source_witness :
    (create_bucket_if_not_exists memClient ["b"] "b").1 = .ok () ∧
    ((backup memClient ["b"] sampleRoot false [] "b" "k").1 =
       .err (.zip .fileNotFound) ∧
     (backup memClient ["b"] sampleRoot false [] "b" "k").2 =
       (create_bucket_if_not_exists memClient ["b"] "b").2.2 ++
         [.zipRun sampleRoot] ∧
     ∀ b' k' body, Event.putObject b' k' body ∉
       (backup memClient ["b"] sampleRoot false [] "b" "k").2) :=
  ⟨by decide,
   backup_file_source memClient ["b"] sampleRoot [] "b" "k" (by decide)⟩

/-- C2, counterexample: `restore` of a member absent from the archive
fails with `MemberNotFound` (`ZipError::FileNotFound`), but it has
already performed a filesystem write: `File::create` of the destination
ran before the lookup, so "performs no filesystem writes" is false of
the code. -/
theorem restore_missing_member_cex :
    (restore (getClient sampleArchive) "b" "k" ["d"] (some ["x"])).1 =
      .error (.zip .fileNotFound) ∧
    (restore (getClient sampleArchive) "b" "k" ["d"] (some ["x"])).2.2 =
      [.createFile ["d", "x"]] ∧
    (restore (getClient sampleArchive) "b" "k" ["d"] (some ["x"])).2.2 ≠
      [] := by
  refine ⟨?_, ?_, ?_⟩ <;> decide

/-- C2, amended: `extractOne` on a name absent from the archive fails
with `MemberNotFound`, and its only filesystem write is the
creation/truncation of the empty destination file, performed before the
lookup; no member content is ever written. -/
theorem restore_missing_member (c : Client) (b k : String)
    (path m : List String) (ar : List ArchiveEntry)
    (hget : c.getRes b k = .ok ar)
    (habs : ∀ e ∈ ar, e.name ≠ m) :
    restore c b k path (some m) =
      (.error (.zip .fileNotFound), [.getObject b k],
        [.createFile (path ++ m)]) := by
  have hfind : ar.find? (fun e => decide (e.name = m)) = none :=
    List.find?_eq_none.mpr fun e he => by simp [habs e he]
  simp [restore, hget, hfind]

/-- C2, witness for the amended theorem at a concrete archive. -/
theorem restore_missing_member_witness :
    ((getClient sampleArchive).getRes "b" "k" = .ok sampleArchive ∧
     ∀ e ∈ sampleArchive, e.name ≠ ["missing"]) ∧
    restore (getClient sampleArchive) "b" "k" ["d"] (some ["missing"]) =
      (.error (.zip .fileNotFound), [.getObject "b" "k"],
        [.createFile ["d", "missing"]]) :=
  ⟨⟨rfl, by decide⟩,
   restore_missing_member (getClient sampleArchive) "b" "k" ["d"]
     ["missing"] sampleArchive rfl (by decide)⟩

/-- C3: for a readable tree with UTF-8 relative names, extracting every
member of the archive `zip_dir` builds reproduces exactly the tree's
relative paths with byte-identical file contents, and every record
carries the fixed (normalized) permissions rather than the source's. -/
theorem zip_extract_roundtrip (src : OsPath) (t : List TreeEntry)
    (m : CompressionMethod) (dest : List String)
    (hutf : ∀ e ∈ t, (pathToStr e.rel).isSome = true)
    (hwf : ∀ e ∈ t, e.rel ≠ []) :
    ∃ ar, zip_dir src true (walkOf src t) m = .ok ar ∧
      writtenFiles (extractAll ar dest) = treeFiles dest t ∧
      madeDirs (extractAll ar dest) = treeDirs dest t ∧
      ∀ r ∈ ar, r.perms = unixPerms :=
  ⟨t.filterMap (treeRecord m), zip_dir_walkOf src t m hutf,
   extract_files m dest t, extract_dirs m dest t hwf,
   fun r hr => (zip_dir_ok_mem (zip_dir_walkOf src t m hutf) r hr).1⟩

/-- C3, witness: the spec's concrete scenario
`{a.txt: "hi", sub/b.txt: "bye"}`. -/
theorem zip_extract_roundtrip_witness :
    ((∀ e ∈ sampleTree, (pathToStr e.rel).isSome = true) ∧
     (∀ e ∈ sampleTree, e.rel ≠ [])) ∧
    ∃ ar, zip_dir sampleRoot true (walkOf sampleRoot sampleTree)
        CompressionMethod.Deflated = .ok ar ∧
      writtenFiles (extractAll ar ["out"]) = treeFiles ["out"] sampleTree ∧
      madeDirs (extractAll ar ["out"]) = treeDirs ["out"] sampleTree ∧
      ∀ r ∈ ar, r.perms = unixPerms :=
  ⟨⟨by decide, by decide⟩,
   zip_extract_roundtrip sampleRoot sampleTree .Deflated ["out"]
     (by decide) (by decide)⟩

/-- C4: a directory record is never emitted for the tree's own root —
no directory record in any successful archive has the empty name — and
archiving a tree that holds only the root and N files yields exactly 0
directory records and N file records. -/
theorem zip_dir_no_root_record :
    (∀ (src : OsPath) (d : Bool) (walk : List (Except WalkErr DirEntry))
       (m : CompressionMethod) (ar : List ArchiveEntry),
       zip_dir src d walk m = .ok ar →
       ∀ r ∈ ar, r.isDirRec = true → r.name ≠ []) ∧
    (∀ (src : OsPath) (t : List TreeEntry) (m : CompressionMethod),
       (∀ e ∈ t, (pathToStr e.rel).isSome = true) →
       (∀ e ∈ t, ∃ c, e.kind = TKind.file c) →
       ∃ ar, zip_dir src true (walkOf src t) m = .ok ar ∧
         ar.countP (fun r => r.isDirRec) = 0 ∧
         ar.countP (fun r => !r.isDirRec) = t.length) := by
  constructor
  · intro src d walk m ar h r hr hdir
    have hkind : r.kind = RecKind.dir := by
      cases hk : r.kind with
      | file d0 => simp [ArchiveEntry.isDirRec, hk] at hdir
      | dir => rfl
    exact (zip_dir_ok_mem h r hr).2.2 hkind
  · intro src t m hutf hfile
    exact ⟨t.filterMap (treeRecord m), zip_dir_walkOf src t m hutf,
      (allfiles_counts m t hutf hfile).1, (allfiles_counts m t hutf hfile).2⟩

/-- C4, witness: the sample tree's archive has no empty-named directory
record, and a two-file tree archives to 0 directory and 2 file
records. -/
theorem zip_dir_no_root_record_witness :
    (zip_dir sampleRoot true (walkOf sampleRoot sampleTree)
       CompressionMethod.Deflated = .ok sampleTreeArchive ∧
     ∀ r ∈ sampleTreeArchive, r.isDirRec = true → r.name ≠ []) ∧
    ((∀ e ∈ allFilesTree, (pathToStr e.rel).isSome = true) ∧
     (∀ e ∈ allFilesTree, ∃ c, e.kind = TKind.file c) ∧
     ∃ ar, zip_dir sampleRoot true (walkOf sampleRoot allFilesTree)
         CompressionMethod.Stored = .ok ar ∧
       ar.countP (fun r => r.isDirRec) = 0 ∧
       ar.countP (fun r => !r.isDirRec) = allFilesTree.length) :=
  ⟨⟨by decide,
    zip_dir_no_root_record.1 sampleRoot true (walkOf sampleRoot sampleTree)
      .Deflated sampleTreeArchive (by decide)⟩,
   by decide,
   by
     intro e he
     simp [allFilesTree] at he
     rcases he with rfl | rfl
     · exact ⟨[1], rfl⟩
     · exact ⟨[2], rfl⟩,
   zip_dir_no_root_record.2 sampleRoot allFilesTree .Stored
     (by decide)
     (by
       intro e he
       simp [allFilesTree] at he
       rcases he with rfl | rfl
       · exact ⟨[1], rfl⟩
       · exact ⟨[2], rfl⟩)⟩

/-- C5: when the existence probe succeeds, `create_bucket_if_not_exists`
returns success at once with no creation request; so when the probe
reports existing buckets truthfully and the bucket exists after the
first call, a second call in succession succeeds with only the probe in
its trace — no error and no duplicate creation attempt. -/
theorem create_bucket_idempotent (c : Client) :
    (∀ (bs : List String) (b : String), c.probeOk bs b = true →
       create_bucket_if_not_exists c bs b = (.ok (), bs, [.headBucket b])) ∧
    (∀ (bs : List String) (b : String),
       (∀ (bs' : List String) (b' : String), b' ∈ bs' →
          c.probeOk bs' b' = true) →
       b ∈ (create_bucket_if_not_exists c bs b).2.1 →
       (create_bucket_if_not_exists c
          (create_bucket_if_not_exists c bs b).2.1 b).1 = .ok () ∧
       (create_bucket_if_not_exists c
          (create_bucket_if_not_exists c bs b).2.1 b).2.2 =
         [.headBucket b]) := by
  constructor
  · intro bs b h
    simp [create_bucket_if_not_exists, h]
  · intro bs b hfaith hmem
    generalize hX : (create_bucket_if_not_exists c bs b).2.1 = bs1 at hmem ⊢
    have hp : c.probeOk bs1 b = true := hfaith bs1 b hmem
    constructor <;> simp [create_bucket_if_not_exists, hp]

/-- C5, witness: a membership-faithful store; the first call creates the
bucket, the second only probes; a pre-existing bucket is also only
probed. -/
theorem create_bucket_idempotent_witness :
    ((∀ (bs' : List String) (b' : String), b' ∈ bs' →
        memClient.probeOk bs' b' = true) ∧
     "b" ∈ (create_bucket_if_not_exists memClient [] "b").2.1) ∧
    ((create_bucket_if_not_exists memClient
        (create_bucket_if_not_exists memClient [] "b").2.1 "b").1 =
       .ok () ∧
     (create_bucket_if_not_exists memClient
        (create_bucket_if_not_exists memClient [] "b").2.1 "b").2.2 =
       [.headBucket "b"]) ∧
    create_bucket_if_not_exists memClient ["c"] "c" =
      (.ok (), ["c"], [.headBucket "c"]) :=
  ⟨⟨fun bs' b' h => by simpa [memClient] using h, by decide⟩,
   (create_bucket_idempotent memClient).2 [] "b"
     (fun bs' b' h => by simpa [memClient] using h) (by decide),
   (create_bucket_idempotent memClient).1 ["c"] "c" (by decide)⟩

/-- C6: a traversal error on an individual entry never aborts the run —
`zip_dir` behaves exactly as it does on the traversal with the failing
entries removed — and when the surviving entries are clean the archive
still holds all of them, with no error surfaced for the skipped
ones. -/
theorem zip_dir_skips_walk_errors :
    (∀ (src : OsPath) (d : Bool) (walk : List (Except WalkErr DirEntry))
       (m : CompressionMethod),
       zip_dir src d walk m =
         zip_dir src d ((walk.filterMap Except.toOption).map Except.ok) m) ∧
    (∀ (src : OsPath) (walk : List (Except WalkErr DirEntry))
       (m : CompressionMethod),
       (∀ e, Except.ok e ∈ walk → cleanEntry src e = true) →
       zip_dir src true walk m =
         .ok ((walk.filterMap Except.toOption).filterMap
           (recordOf src m))) := by
  constructor
  · intro src d walk m
    have h2 : ((walk.filterMap Except.toOption).map
        (Except.ok (ε := WalkErr))).filterMap Except.toOption =
          walk.filterMap Except.toOption := by
      rw [List.filterMap_map]
      exact List.filterMap_some _
    cases d with
    | false => rfl
    | true => rw [zip_dir, zip_dir, if_pos rfl, if_pos rfl, h2]
  · exact zip_dir_clean

/-- C6, witness: a traversal with one failing entry between readable
ones archives as if the failing entry were absent, with no error. -/
theorem zip_dir_skips_walk_errors_witness :
    (zip_dir sampleRoot true sampleWalk CompressionMethod.Deflated =
       zip_dir sampleRoot true
         ((sampleWalk.filterMap Except.toOption).map Except.ok)
         CompressionMethod.Deflated) ∧
    (∀ e, Except.ok e ∈ sampleWalk → cleanEntry sampleRoot e = true) ∧
    zip_dir sampleRoot true sampleWalk CompressionMethod.Deflated =
      .ok ((sampleWalk.filterMap Except.toOption).filterMap
        (recordOf sampleRoot CompressionMethod.Deflated)) :=
  ⟨zip_dir_skips_walk_errors.1 sampleRoot true sampleWalk .Deflated,
   fun e he => by
     simp [sampleWalk] at he
     rcases he with rfl | rfl <;> decide,
   zip_dir_skips_walk_errors.2 sampleRoot sampleWalk .Deflated
     (fun e he => by
       simp [sampleWalk] at he
       rcases he with rfl | rfl <;> decide)⟩

/-- C7: every record in any archive `zip_dir` builds carries the fixed
`0o755` permission bits and the requested method, and every archive
`backup` uploads was built with `Deflated` and those permissions. -/
theorem zip_dir_fixed_options :
    (∀ (src : OsPath) (d : Bool) (walk : List (Except WalkErr DirEntry))
       (m : CompressionMethod) (ar : List ArchiveEntry),
       zip_dir src d walk m = .ok ar →
       ∀ r ∈ ar, r.perms = unixPerms ∧ r.method = m) ∧
    (∀ (c : Client) (bs : List String) (src : OsPath) (d : Bool)
       (walk : List (Except WalkErr DirEntry)) (b k b' k' : String)
       (body : List ArchiveEntry),
       Event.putObject b' k' body ∈ (backup c bs src d walk b k).2 →
       ∀ r ∈ body, r.perms = unixPerms ∧
         r.method = CompressionMethod.Deflated) := by
  constructor
  · intro src d walk m ar h r hr
    exact ⟨(zip_dir_ok_mem h r hr).1, (zip_dir_ok_mem h r hr).2.1⟩
  · intro c bs src d walk b k b' k' body hmem r hr
    have hz := backup_put_body hmem
    exact ⟨(zip_dir_ok_mem hz r hr).1, (zip_dir_ok_mem hz r hr).2.1⟩

/-- C7, witness: the sample tree's archive and the archive a successful
`backup` uploads, both with the fixed options. -/
theorem zip_dir_fixed_options_witness :
    (zip_dir sampleRoot true (walkOf sampleRoot sampleTree)
       CompressionMethod.Deflated = .ok sampleTreeArchive ∧
     ∀ r ∈ sampleTreeArchive, r.perms = unixPerms ∧
       r.method = CompressionMethod.Deflated) ∧
    (Event.putObject "b" "k" sampleTreeArchive ∈
       (backup probeTrueClient [] sampleRoot true
         (walkOf sampleRoot sampleTree) "b" "k").2 ∧
     ∀ r ∈ sampleTreeArchive, r.perms = unixPerms ∧
       r.method = CompressionMethod.Deflated) :=
  ⟨⟨by decide,
    zip_dir_fixed_options.1 sampleRoot true (walkOf sampleRoot sampleTree)
      .Deflated sampleTreeArchive (by decide)⟩,
   by decide,
   zip_dir_fixed_options.2 probeTrueClient [] sampleRoot true
     (walkOf sampleRoot sampleTree) "b" "k" "b" "k" sampleTreeArchive
     (by decide)⟩

/-- C8: `backup` runs bucket provisioning, then the archiver, then the
upload, in that order; each stage's failure aborts the run, skips every
later stage, and surfaces that stage's error unchanged, with no
retry. -/
theorem backup_stage_order (c : Client) (bs : List String) (src : OsPath)
    (d : Bool) (walk : List (Except WalkErr DirEntry)) (b k : String) :
    (∀ e, (create_bucket_if_not_exists c bs b).1 = .error e →
       backup c bs src d walk b k =
         (.err (.create e), (create_bucket_if_not_exists c bs b).2.2)) ∧
    ((create_bucket_if_not_exists c bs b).1 = .ok () →
       ∀ e, zip_dir src d walk CompressionMethod.Deflated = .err e →
         backup c bs src d walk b k =
           (.err (.zip e),
            (create_bucket_if_not_exists c bs b).2.2 ++ [.zipRun src])) ∧
    ((create_bucket_if_not_exists c bs b).1 = .ok () →
       ∀ ar e, zip_dir src d walk CompressionMethod.Deflated = .ok ar →
         c.putRes b k = some e →
         backup c bs src d walk b k =
           (.err (.put e),
            (create_bucket_if_not_exists c bs b).2.2 ++
              [.zipRun src, .putObject b k ar])) ∧
    ((create_bucket_if_not_exists c bs b).1 = .ok () →
       ∀ ar, zip_dir src d walk CompressionMethod.Deflated = .ok ar →
         c.putRes b k = none →
         backup c bs src d walk b k =
           (.ok (),
            (create_bucket_if_not_exists c bs b).2.2 ++
              [.zipRun src, .putObject b k ar])) := by
  rcases hcb : create_bucket_if_not_exists c bs b with ⟨res, bs2, tr⟩
  refine ⟨?_, ?_, ?_, ?_⟩
  · intro e he
    cases res with
    | ok u => simp at he
    | error e0 =>
      have : e0 = e := by simpa using he
      subst this
      simp [backup, hcb]
  · intro hok e hz
    cases res with
    | error e0 => simp at hok
    | ok u => simp [backup, hcb, hz]
  · intro hok ar e hz hput
    cases res with
    | error e0 => simp at hok
    | ok u => simp [backup, hcb, hz, hput]
  · intro hok ar hz hput
    cases res with
    | error e0 => simp at hok
    | ok u => simp [backup, hcb, hz, hput]

/-- C8, witness: all four stage outcomes at concrete stores — creation
failure, archiver failure, upload failure, and full success. -/
theorem backup_stage_order_witness :
    ((create_bucket_if_not_exists createFailClient [] "b").1 =
       .error ⟨7⟩ ∧
     backup createFailClient [] sampleRoot true [] "b" "k" =
       (.err (.create ⟨7⟩),
        (create_bucket_if_not_exists createFailClient [] "b").2.2)) ∧
    (backup memClient ["b"] sampleRoot false [] "b" "k" =
       (.err (.zip .fileNotFound),
        (create_bucket_if_not_exists memClient ["b"] "b").2.2 ++
          [.zipRun sampleRoot])) ∧
    (backup putFailClient [] sampleRoot true (walkOf sampleRoot []) "b" "k" =
       (.err (.put ⟨9⟩),
        (create_bucket_if_not_exists putFailClient [] "b").2.2 ++
          [.zipRun sampleRoot, .putObject "b" "k" []])) ∧
    (backup probeTrueClient [] sampleRoot true (walkOf sampleRoot [])
       "b" "k" =
       (.ok (),
        (create_bucket_if_not_exists probeTrueClient [] "b").2.2 ++
          [.zipRun sampleRoot, .putObject "b" "k" []])) :=
  ⟨⟨by decide,
    (backup_stage_order createFailClient [] sampleRoot true [] "b" "k").1
      ⟨7⟩ (by decide)⟩,
   (backup_stage_order memClient ["b"] sampleRoot false [] "b" "k").2.1
     (by decide) .fileNotFound (by decide),
   (backup_stage_order putFailClient [] sampleRoot true
     (walkOf sampleRoot []) "b" "k").2.2.1 (by decide) [] ⟨9⟩
     (by decide) (by decide),
   (backup_stage_order probeTrueClient [] sampleRoot true
     (walkOf sampleRoot []) "b" "k").2.2.2 (by decide) [] (by decide)
     (by decide)⟩

/-- C9: stripping the root from a path the traversal yielded under it
always succeeds, so the unchecked `strip_prefix(..).unwrap()` in the
writer can never be the cause of an abort. -/
theorem strip_never_fails :
    (∀ (src rel : OsPath) (e : DirEntry), e.path = src ++ rel →
       stripPre e.path src = some rel) ∧
    (∀ (src : OsPath) (d : Bool) (walk : List (Except WalkErr DirEntry))
       (m : CompressionMethod),
       (∀ e, Except.ok e ∈ walk → ∃ rel, e.path = src ++ rel) →
       zip_dir src d walk m ≠ .panicked .stripFailed) := by
  constructor
  · intro src rel e h
    rw [h]
    exact stripPre_append src rel
  · intro src d walk m hunder
    rw [zip_dir]
    cases d with
    | false => simp
    | true =>
      rw [if_pos rfl]
      apply helperLoop_ne_strip_panic
      intro e he
      rcases List.mem_filterMap.mp he with ⟨a, ha, hae⟩
      rcases hunder e (toOption_eq_some.mp hae ▸ ha) with ⟨rel, hrel⟩
      rw [hrel, stripPre_append]
      rfl

/-- C9, witness: a concrete under-root traversal neither trips the
strip nor panics. -/
theorem strip_never_fails_witness :
    stripPre (sampleRoot ++ [.utf8 "a"]) sampleRoot = some [.utf8 "a"] ∧
    zip_dir sampleRoot true
      [.ok ⟨sampleRoot ++ [.utf8 "a"], EntryKind.dir⟩]
      CompressionMethod.Deflated ≠ .panicked .stripFailed :=
  ⟨strip_never_fails.1 sampleRoot [.utf8 "a"]
     ⟨sampleRoot ++ [.utf8 "a"], EntryKind.dir⟩ rfl,
   strip_never_fails.2 sampleRoot true
     [.ok ⟨sampleRoot ++ [.utf8 "a"], EntryKind.dir⟩] .Deflated
     (fun e he => by
       simp at he
       subst he
       exact ⟨[.utf8 "a"], rfl⟩)⟩

/-- C10: a readable tree holding any entry whose root-relative name is
not valid UTF-8 makes `zip_dir` abort with the `to_str().unwrap()`
panic — it neither returns an `ArchiveError` nor skips the entry, so a
successful archive never stores a non-UTF-8 name. -/
theorem zip_dir_nonUtf8_panics (src : OsPath) (t : List TreeEntry)
    (m : CompressionMethod)
    (hbad : ∃ e ∈ t, pathToStr e.rel = none) :
    zip_dir src true (walkOf src t) m = .panicked .nonUtf8Name := by
  rw [zip_dir, if_pos rfl, walkOf_filterMap]
  rw [show helperLoop src m
      (⟨src, EntryKind.dir⟩ :: t.map (toDirEntry src)) [] =
        helperLoop src m (t.map (toDirEntry src)) [] by
    simp [helperLoop, stripPre_self]]
  exact helperLoop_map_nonUtf8 src m t [] hbad

/-- C10, witness: a tree with one non-UTF-8 file name panics. -/
theorem zip_dir_nonUtf8_panics_witness :
    (∃ e ∈ badNameTree, pathToStr e.rel = none) ∧
    zip_dir sampleRoot true (walkOf sampleRoot badNameTree)
      CompressionMethod.Deflated = .panicked .nonUtf8Name :=
  ⟨by decide,
   zip_dir_nonUtf8_panics sampleRoot badNameTree .Deflated (by decide)⟩

end AwsBackup
